import Mathlib

/-!
Verification of the doc-pro asynchronous document-processing pipeline.

The definitions below are a shallow embedding of `src/doc_pro/worker.py`
(the parse/translate worker, the text normalizer and the chunker) and of
the chunk-listing endpoint of `src/doc_pro/main.py`.  Text is modeled as
`List Char`; Python's `str.strip`, `str.splitlines` and `"\n".join` are
modeled explicitly.  Timestamps are modeled by a monotone `Nat` clock held
in the database state: every document update stamps `updated_at` with the
current clock value and advances the clock.
-/

namespace DocPro

/-- Whitespace as recognized by Python's `str.strip`. -/
def isPySpace (c : Char) : Bool :=
  c = ' ' || c = '\t' || c = '\n' || c = '\r' || c = Char.ofNat 11 || c = Char.ofNat 12

/-- Python `str.strip`: drop whitespace from both ends. -/
def strip (l : List Char) : List Char :=
  (((l.dropWhile isPySpace).reverse.dropWhile isPySpace)).reverse

/-- Python `str.splitlines`, restricted to the line terminators that occur in
this pipeline: `\n`, `\r` and `\r\n`.  A trailing terminator does not produce
a trailing empty line. -/
def splitlines : List Char → List (List Char)
  | [] => []
  | c :: rest =>
    if c = '\n' then [] :: splitlines rest
    else if c = '\r' then
      match rest with
      | '\n' :: rest2 => [] :: splitlines rest2
      | [] => [[]]
      | c2 :: rest2 => [] :: splitlines (c2 :: rest2)
    else
      match splitlines rest with
      | [] => [[c]]
      | line :: lines => (c :: line) :: lines
termination_by l => l.length
decreasing_by all_goals simp_arith

/-- Python `"\n".join`. -/
def joinNL : List (List Char) → List Char
  | [] => []
  | [x] => x
  | x :: y :: ys => x ++ '\n' :: joinNL (y :: ys)

/-- `worker._normalize_text`: strip every line, drop lines that become empty,
rejoin with newlines. -/
def _normalize_text (text : List Char) : List Char :=
  joinNL (((splitlines text).map strip).filter (fun l => !l.isEmpty))

/-- The stripped, non-empty lines `_normalize_text` keeps. -/
def normLines (t : List Char) : List (List Char) :=
  ((splitlines t).map strip).filter (fun l => !l.isEmpty)

def CHUNK_SIZE : Nat := 800
def CHUNK_OVERLAP : Nat := 160

/-- The `while start < len(text)` loop of `worker._split_text`, written with
an explicit iteration budget (`fuel`); `_split_text` runs it with enough fuel,
and the fuel-stability theorems below show the budget is never exceeded. -/
def split_text_go (text : List Char) : Nat → Nat → List (List Char)
  | 0, _ => []
  | fuel + 1, start =>
    if start < text.length then
      let e := min (start + CHUNK_SIZE) text.length
      let chunk := strip ((text.drop start).take (e - start))
      let rest := if e = text.length then [] else split_text_go text fuel (start + (CHUNK_SIZE - CHUNK_OVERLAP))
      (if chunk.isEmpty then [] else [chunk]) ++ rest
    else []

/-- `worker._split_text`: overlapping fixed windows of size 800 with step 640,
each window trimmed, empty windows dropped. -/
def _split_text (text : List Char) : List (List Char) :=
  if (strip text).isEmpty then [] else split_text_go text (text.length + 1) 0

/-- A row of the `documents` table.  Provenance columns (`user_id`, `filename`,
`file_path`, `created_at`) are immutable strings no claim mentions and are not
modeled. -/
structure Doc where
  status : String
  page_count : Nat
  error_message : Option String
  translation_status : String
  translation_error_message : Option String
  updated_at : Nat
deriving DecidableEq, Repr

/-- A row of the `document_chunks` table, for one document.  Chunk ids are
`Nat` standing for the `uuid4` strings of the source; `uuid4` uniqueness
becomes a `Nodup` hypothesis where it matters. -/
structure Chunk where
  id : Nat
  page : Nat
  chunk_index : Nat
  text_raw : List Char
  text_zh : Option (List Char)
  embedding_status : String
deriving DecidableEq, Repr

/-- The persisted state of one document: its `documents` row (if the row
exists), its chunk rows, and the clock used to stamp `updated_at`. -/
structure DB where
  doc : Option Doc
  chunks : List Chunk
  time : Nat
deriving DecidableEq, Repr

/-- `worker._build_chunks`: one row per emitted chunk, pages numbered from 1,
chunk indices from 0; fresh ids are assigned positionally. -/
def _build_chunks (pages : List (List Char)) : List Chunk :=
  ((List.enumFrom 1 pages).flatMap (fun pt =>
    ((_split_text pt.2).enum.map (fun ic =>
      ({ id := 0, page := pt.1, chunk_index := ic.1, text_raw := ic.2,
         text_zh := none, embedding_status := "pending" } : Chunk)))))
    |>.enum.map (fun r => { r.2 with id := r.1 })

/-- `worker._process_document`, with the extraction collaborator's outcome
(`_extract_pdf_pages`, already normalized page texts) passed in as an
`Except` value. -/
def _process_document (extract : Except String (List (List Char))) (db : DB) : DB :=
  let db1 : DB :=
    { db with
      doc := db.doc.map (fun d =>
        { d with status := "processing", updated_at := db.time, error_message := none }),
      time := db.time + 1 }
  match db1.doc with
  | none => db1
  | some _ =>
    match extract with
    | .error exc =>
      { db1 with
        doc := db1.doc.map (fun d =>
          { d with status := "failed", error_message := some exc, updated_at := db1.time }),
        time := db1.time + 1 }
    | .ok pages =>
      let db2 : DB := { db1 with chunks := _build_chunks pages }
      { db2 with
        doc := db2.doc.map (fun d =>
          { d with status := "ready", page_count := pages.length,
                   translation_status := "pending", translation_error_message := none,
                   updated_at := db2.time }),
        time := db2.time + 1 }

/-- `text_zh IS NULL OR text_zh = ''`. -/
def untranslatedB (o : Option (List Char)) : Bool :=
  match o with
  | none => true
  | some t => t.isEmpty

/-- `ORDER BY page, chunk_index`. -/
def chunkPageIdxLE (a b : Chunk) : Bool :=
  a.page < b.page || (a.page = b.page && a.chunk_index ≤ b.chunk_index)

/-- `ORDER BY chunk_index`. -/
def chunkIdxLE (a b : Chunk) : Bool :=
  a.chunk_index ≤ b.chunk_index

def insertLE (le : Chunk → Chunk → Bool) (c : Chunk) : List Chunk → List Chunk
  | [] => [c]
  | x :: xs => if le c x then c :: x :: xs else x :: insertLE le c xs

/-- Insertion sort modeling SQL `ORDER BY`. -/
def sortLE (le : Chunk → Chunk → Bool) : List Chunk → List Chunk
  | [] => []
  | c :: cs => insertLE le c (sortLE le cs)

/-- The chunk-selection queries of `worker._process_translation`: untranslated
chunks of the document, optionally filtered to one page. -/
def selectChunks (chunks : List Chunk) (page : Option Nat) : List Chunk :=
  match page with
  | none => sortLE chunkPageIdxLE (chunks.filter (fun c => untranslatedB c.text_zh))
  | some p => sortLE chunkIdxLE (chunks.filter (fun c => c.page = p && untranslatedB c.text_zh))

/-- The row predicate of the two selection queries. -/
def selPred (page : Option Nat) (c : Chunk) : Bool :=
  match page with
  | none => untranslatedB c.text_zh
  | some p => c.page = p && untranslatedB c.text_zh

/-- The cumulative effect on one chunk row of the successful translation
updates for the selection prefix `pre`. -/
def applyPre (translate : List Char → Except String (List Char))
    (pre : List Chunk) (ch : Chunk) : Chunk :=
  match pre.find? (fun c => c.id == ch.id) with
  | some c =>
    match translate c.text_raw with
    | .ok t => { ch with text_zh := some t }
    | .error _ => ch
  | none => ch

/-- The per-chunk translation loop of `worker._process_translation`.  Returns
the updated state, the trace of texts sent to the translation collaborator,
and the first failure if any.  Each successful call persists `text_zh` for
that chunk immediately. -/
def translateChunks (translate_text_with_gen_ai : List Char → Except String (List Char)) :
    List Chunk → DB → List (List Char) → DB × List (List Char) × Option String
  | [], db, trace => (db, trace, none)
  | c :: rest, db, trace =>
    match translate_text_with_gen_ai c.text_raw with
    | .error exc => (db, trace ++ [c.text_raw], some exc)
    | .ok tr =>
      translateChunks translate_text_with_gen_ai rest
        { db with chunks := db.chunks.map (fun ch =>
            if ch.id = c.id then { ch with text_zh := some tr } else ch) }
        (trace ++ [c.text_raw])

/-- `worker._refresh_translation_status`: count untranslated chunks of the
whole document; `ready` if none remain, else `pending`. -/
def _refresh_translation_status (db : DB) : DB :=
  let remaining := db.chunks.countP (fun c => untranslatedB c.text_zh)
  let next_status := if remaining = 0 then "ready" else "pending"
  { db with
    doc := db.doc.map (fun d =>
      { d with translation_status := next_status, translation_error_message := none,
               updated_at := db.time }),
    time := db.time + 1 }

/-- `worker._process_translation`, with the translation collaborator passed in
as a function; the second component of the result is the trace of collaborator
calls. -/
def _process_translation (translate_text_with_gen_ai : List Char → Except String (List Char))
    (db : DB) (page : Option Nat) : DB × List (List Char) :=
  match db.doc with
  | none => (db, [])
  | some d =>
    if d.status ≠ "ready" then
      ({ db with
         doc := some { d with translation_status := "failed",
                              translation_error_message := some "Document is not ready for translation.",
                              updated_at := db.time },
         time := db.time + 1 }, [])
    else
      let db1 : DB :=
        { db with
          doc := some { d with translation_status := "processing",
                               translation_error_message := none, updated_at := db.time },
          time := db.time + 1 }
      let selected := selectChunks db1.chunks page
      match translateChunks translate_text_with_gen_ai selected db1 [] with
      | (db2, trace, some exc) =>
        ({ db2 with
           doc := db2.doc.map (fun d2 =>
             { d2 with translation_status := "failed", translation_error_message := some exc,
                       updated_at := db2.time }),
           time := db2.time + 1 }, trace)
      | (db2, trace, none) => (_refresh_translation_status db2, trace)

/-- Python truthiness of a nullable text column: non-null and non-empty. -/
def zhTruthy (o : Option (List Char)) : Bool :=
  match o with
  | none => false
  | some t => !t.isEmpty

/-- The chunk dictionaries built by `main.get_document_chunks` when
`lang = "zh"`. -/
structure ZhChunkOut where
  id : Nat
  page : Nat
  chunk_index : Nat
  text : List Char
  text_raw : List Char
  text_zh : Option (List Char)
  is_cached_translation : Bool
  embedding_status : String
deriving DecidableEq, Repr

/-- The chunk list of the response: raw rows, or transformed rows for
`lang = "zh"`. -/
inductive ChunkPayload where
  | raw (chunks : List Chunk)
  | zh (chunks : List ZhChunkOut)
deriving DecidableEq, Repr

structure ChunksResponse where
  count : Nat
  lang : String
  cached_translation_count : Nat
  chunks : ChunkPayload
deriving DecidableEq, Repr

/-- The rows `main.get_document_chunks` fetches: all chunks ordered by
`(page, chunk_index)`, or one page's chunks ordered by `chunk_index`. -/
def endpointRows (chunks : List Chunk) (page : Option Nat) : List Chunk :=
  match page with
  | none => sortLE chunkPageIdxLE chunks
  | some p => sortLE chunkIdxLE (chunks.filter (fun c => c.page = p))

/-- `main.get_document_chunks`; errors are the HTTP status codes it raises. -/
def get_document_chunks (db : DB) (page : Option Nat) (lang : String) :
    Except Nat ChunksResponse :=
  match db.doc with
  | none => .error 404
  | some _ =>
    if lang ≠ "raw" ∧ lang ≠ "zh" then .error 400
    else
      let rows := endpointRows db.chunks page
      if lang = "zh" then
        let transformed := rows.map (fun c =>
          let is_cached := zhTruthy c.text_zh
          ({ id := c.id, page := c.page, chunk_index := c.chunk_index,
             text := if is_cached then c.text_zh.getD [] else c.text_raw,
             text_raw := c.text_raw, text_zh := c.text_zh,
             is_cached_translation := is_cached,
             embedding_status := c.embedding_status } : ZhChunkOut))
        .ok { count := transformed.length, lang := lang,
              cached_translation_count := transformed.countP (fun c => zhTruthy c.text_zh),
              chunks := .zh transformed }
      else
        .ok { count := rows.length, lang := lang,
              cached_translation_count := rows.countP (fun c => zhTruthy c.text_zh),
              chunks := .raw rows }

/-! ### Lemmas about `strip` -/

theorem dropWhile_idem (p : Char → Bool) (l : List Char) :
    List.dropWhile p (List.dropWhile p l) = List.dropWhile p l := by
  induction l with
  | nil => rfl
  | cons a t ih =>
    by_cases h : p a
    · simp [List.dropWhile_cons_of_pos h, ih]
    · simp [List.dropWhile_cons_of_neg h]

theorem head?_dropWhile (p : Char → Bool) (l : List Char) :
    ∀ c, (List.dropWhile p l).head? = some c → p c = false := by
  induction l with
  | nil => simp
  | cons a t ih =>
    by_cases h : p a
    · simpa [List.dropWhile_cons_of_pos h] using ih
    · intro c hc
      rw [List.dropWhile_cons_of_neg h] at hc
      simp only [List.head?_cons, Option.some.injEq] at hc
      subst hc
      simpa using h

theorem getLast?_dropWhile (p : Char → Bool) (l : List Char)
    (h : List.dropWhile p l ≠ []) : (List.dropWhile p l).getLast? = l.getLast? := by
  induction l with
  | nil => simp at h
  | cons a t ih =>
    by_cases hp : p a
    · rw [List.dropWhile_cons_of_pos hp] at h ⊢
      rw [ih h]
      cases t with
      | nil => simp at h
      | cons b t' => exact (List.getLast?_cons_cons).symm
    · rw [List.dropWhile_cons_of_neg hp]

theorem dropWhile_eq_self_of_head (p : Char → Bool) (l : List Char)
    (h : ∀ c, l.head? = some c → p c = false) : List.dropWhile p l = l := by
  cases l with
  | nil => rfl
  | cons a t =>
    have := h a (by simp)
    simp [List.dropWhile_cons, this]

theorem strip_eq_self (l : List Char)
    (h1 : ∀ c, l.head? = some c → isPySpace c = false)
    (h2 : ∀ c, l.getLast? = some c → isPySpace c = false) : strip l = l := by
  unfold strip
  rw [dropWhile_eq_self_of_head _ _ h1,
      dropWhile_eq_self_of_head _ _ (by simpa using h2), List.reverse_reverse]

theorem head?_strip (l : List Char) :
    ∀ c, (strip l).head? = some c → isPySpace c = false := by
  intro c hc
  unfold strip at hc
  rw [List.head?_reverse] at hc
  have hne : List.dropWhile isPySpace (List.dropWhile isPySpace l).reverse ≠ [] := by
    intro h0; rw [h0] at hc; simp at hc
  rw [getLast?_dropWhile _ _ hne, List.getLast?_reverse] at hc
  exact head?_dropWhile _ _ c hc

theorem getLast?_strip (l : List Char) :
    ∀ c, (strip l).getLast? = some c → isPySpace c = false := by
  intro c hc
  unfold strip at hc
  rw [List.getLast?_reverse] at hc
  exact head?_dropWhile _ _ c hc

theorem strip_idem (l : List Char) : strip (strip l) = strip l :=
  strip_eq_self _ (head?_strip l) (getLast?_strip l)

theorem strip_eq_nil_iff (l : List Char) :
    strip l = [] ↔ ∀ c ∈ l, isPySpace c = true := by
  unfold strip
  rw [List.reverse_eq_nil_iff, List.dropWhile_eq_nil_iff]
  constructor
  · intro h c hc
    rcases hd : List.dropWhile isPySpace l with _ | ⟨a, t⟩
    · exact (List.dropWhile_eq_nil_iff.mp hd) c hc
    · have ha : isPySpace a = false := head?_dropWhile _ l a (by rw [hd]; simp)
      have : isPySpace a = true := h a (by simp [hd])
      rw [ha] at this; cases this
  · intro h c hc
    exact h c (List.dropWhile_subset _ (List.mem_reverse.mp hc))

theorem mem_of_mem_strip {c : Char} {l : List Char} (h : c ∈ strip l) : c ∈ l := by
  unfold strip at h
  rw [List.mem_reverse] at h
  exact List.dropWhile_subset _ (List.mem_reverse.mp (List.dropWhile_subset _ h))

theorem strip_length_le (l : List Char) : (strip l).length ≤ l.length := by
  unfold strip
  calc (((List.dropWhile isPySpace l).reverse.dropWhile isPySpace)).reverse.length
      = ((List.dropWhile isPySpace l).reverse.dropWhile isPySpace).length := by
        rw [List.length_reverse]
    _ ≤ (List.dropWhile isPySpace l).reverse.length :=
        (List.dropWhile_sublist _).length_le
    _ = (List.dropWhile isPySpace l).length := by rw [List.length_reverse]
    _ ≤ l.length := (List.dropWhile_sublist _).length_le

theorem strip_ne_nil_of_mem {c : Char} {l : List Char}
    (hc : c ∈ l) (hs : isPySpace c = false) : strip l ≠ [] := by
  intro h0
  have := (strip_eq_nil_iff l).mp h0 c hc
  rw [hs] at this; cases this

/-! ### Lemmas about `splitlines` and `joinNL` -/

theorem splitlines_nil : splitlines [] = [] := by simp [splitlines]

theorem splitlines_newline (rest : List Char) :
    splitlines ('\n' :: rest) = [] :: splitlines rest := by
  rw [splitlines.eq_def]; simp

theorem splitlines_crlf (rest : List Char) :
    splitlines ('\r' :: '\n' :: rest) = [] :: splitlines rest := by
  rw [splitlines.eq_def]; simp

theorem splitlines_cr_single : splitlines ['\r'] = [[]] := by
  rw [splitlines.eq_def]; simp

theorem splitlines_cr (c2 : Char) (rest2 : List Char) (h : c2 ≠ '\n') :
    splitlines ('\r' :: c2 :: rest2) = [] :: splitlines (c2 :: rest2) := by
  rw [splitlines.eq_def]; simp [h]

theorem splitlines_other_nil (c : Char) (rest : List Char)
    (h1 : c ≠ '\n') (h2 : c ≠ '\r') (h3 : splitlines rest = []) :
    splitlines (c :: rest) = [[c]] := by
  rw [splitlines.eq_def]; simp [h1, h2, h3]

theorem splitlines_other_cons (c : Char) (rest : List Char) (line : List Char)
    (lines : List (List Char))
    (h1 : c ≠ '\n') (h2 : c ≠ '\r') (h3 : splitlines rest = line :: lines) :
    splitlines (c :: rest) = (c :: line) :: lines := by
  rw [splitlines.eq_def]; simp [h1, h2, h3]

theorem splitlines_no_newline (l : List Char) :
    ∀ x ∈ splitlines l, '\n' ∉ x ∧ '\r' ∉ x := by
  induction l using splitlines.induct with
  | case1 => intro x hx; rw [splitlines_nil] at hx; cases hx
  | case2 rest ih =>
    intro x hx
    rw [splitlines_newline] at hx
    rcases List.mem_cons.mp hx with rfl | hx
    · simp
    · exact ih x hx
  | case3 rest2 _ ih =>
    intro x hx
    rw [splitlines_crlf] at hx
    rcases List.mem_cons.mp hx with rfl | hx
    · simp
    · exact ih x hx
  | case4 =>
    intro x hx
    rw [splitlines_cr_single] at hx
    rcases List.mem_cons.mp hx with rfl | hx
    · simp
    · cases hx
  | case5 c2 rest2 hc2 _ ih =>
    intro x hx
    rw [splitlines_cr c2 rest2 (fun h => hc2 h)] at hx
    rcases List.mem_cons.mp hx with rfl | hx
    · simp
    · exact ih x hx
  | case6 c rest h1 h2 h3 ih =>
    intro x hx
    rw [splitlines_other_nil c rest h1 h2 h3] at hx
    rcases List.mem_cons.mp hx with rfl | hx
    · refine ⟨fun h => ?_, fun h => ?_⟩
      · rcases List.mem_cons.mp h with h | h
        · exact h1 h.symm
        · cases h
      · rcases List.mem_cons.mp h with h | h
        · exact h2 h.symm
        · cases h
    · cases hx
  | case7 c rest h1 h2 line lines h3 ih =>
    intro x hx
    rw [splitlines_other_cons c rest line lines h1 h2 h3] at hx
    rcases List.mem_cons.mp hx with rfl | hx
    · have hline := ih line (by rw [h3]; exact List.mem_cons_self _ _)
      constructor
      · intro hmem
        rcases List.mem_cons.mp hmem with h | h
        · exact h1 h.symm
        · exact hline.1 h
      · intro hmem
        rcases List.mem_cons.mp hmem with h | h
        · exact h2 h.symm
        · exact hline.2 h
    · exact ih x (by rw [h3]; exact List.mem_cons_of_mem _ hx)

theorem splitlines_singleton (x : List Char)
    (hne : x ≠ []) (hn : '\n' ∉ x) (hr : '\r' ∉ x) : splitlines x = [x] := by
  induction x with
  | nil => cases hne rfl
  | cons c t ih =>
    have hcn : c ≠ '\n' := fun h => hn (h ▸ List.mem_cons_self _ _)
    have hcr : c ≠ '\r' := fun h => hr (h ▸ List.mem_cons_self _ _)
    cases t with
    | nil => exact splitlines_other_nil c [] hcn hcr splitlines_nil
    | cons b t' =>
      have ht := ih (by simp) (fun h => hn (List.mem_cons_of_mem _ h))
        (fun h => hr (List.mem_cons_of_mem _ h))
      exact splitlines_other_cons c (b :: t') (b :: t') [] hcn hcr ht

theorem splitlines_append_newline (x : List Char) (m : List Char)
    (hne : x ≠ []) (hn : '\n' ∉ x) (hr : '\r' ∉ x) :
    splitlines (x ++ '\n' :: m) = x :: splitlines m := by
  induction x with
  | nil => cases hne rfl
  | cons c t ih =>
    have hcn : c ≠ '\n' := fun h => hn (h ▸ List.mem_cons_self _ _)
    have hcr : c ≠ '\r' := fun h => hr (h ▸ List.mem_cons_self _ _)
    cases t with
    | nil =>
      show splitlines (c :: '\n' :: m) = [c] :: splitlines m
      rw [splitlines_other_cons c ('\n' :: m) [] (splitlines m) hcn hcr
        (splitlines_newline m)]
    | cons b t' =>
      have ht := ih (by simp) (fun h => hn (List.mem_cons_of_mem _ h))
        (fun h => hr (List.mem_cons_of_mem _ h))
      show splitlines (c :: ((b :: t') ++ '\n' :: m)) = (c :: b :: t') :: splitlines m
      rw [splitlines_other_cons c ((b :: t') ++ '\n' :: m) (b :: t') (splitlines m)
        hcn hcr ht]

theorem splitlines_joinNL (L : List (List Char))
    (h : ∀ x ∈ L, x ≠ [] ∧ '\n' ∉ x ∧ '\r' ∉ x) :
    splitlines (joinNL L) = L := by
  induction L with
  | nil => exact splitlines_nil
  | cons x ys ih =>
    rcases h x (List.mem_cons_self _ _) with ⟨hne, hn, hr⟩
    cases ys with
    | nil => exact splitlines_singleton x hne hn hr
    | cons y ys' =>
      show splitlines (x ++ '\n' :: joinNL (y :: ys')) = x :: (y :: ys')
      rw [splitlines_append_newline x _ hne hn hr,
        ih (fun z hz => h z (List.mem_cons_of_mem _ hz))]

theorem joinNL_ne_nil (L : List (List Char)) (hne : L ≠ [])
    (h : ∀ x ∈ L, x ≠ []) : joinNL L ≠ [] := by
  cases L with
  | nil => cases hne rfl
  | cons x ys =>
    cases ys with
    | nil => exact h x (List.mem_cons_self _ _)
    | cons y ys' =>
      show x ++ '\n' :: joinNL (y :: ys') ≠ []
      simp

theorem joinNL_head? (L : List (List Char))
    (h : ∀ x ∈ L, x ≠ [] ∧ ∀ c, x.head? = some c → isPySpace c = false) :
    ∀ c, (joinNL L).head? = some c → isPySpace c = false := by
  cases L with
  | nil => simp [joinNL]
  | cons x ys =>
    rcases h x (List.mem_cons_self _ _) with ⟨hne, hh⟩
    cases ys with
    | nil => exact hh
    | cons y ys' =>
      intro c hc
      show isPySpace c = false
      have : (x ++ '\n' :: joinNL (y :: ys')).head? = x.head? := by
        cases x with
        | nil => cases hne rfl
        | cons a t => simp
      rw [show joinNL (x :: y :: ys') = x ++ '\n' :: joinNL (y :: ys') from rfl,
        this] at hc
      exact hh c hc

theorem joinNL_getLast? (L : List (List Char))
    (h : ∀ x ∈ L, x ≠ [] ∧ ∀ c, x.getLast? = some c → isPySpace c = false) :
    ∀ c, (joinNL L).getLast? = some c → isPySpace c = false := by
  induction L with
  | nil => simp [joinNL]
  | cons x ys ih =>
    rcases h x (List.mem_cons_self _ _) with ⟨hne, hl⟩
    cases ys with
    | nil => exact hl
    | cons y ys' =>
      intro c hc
      have hjoin : joinNL (y :: ys') ≠ [] :=
        joinNL_ne_nil _ (by simp) (fun z hz => (h z (List.mem_cons_of_mem _ hz)).1)
      rw [show joinNL (x :: y :: ys') = x ++ '\n' :: joinNL (y :: ys') from rfl,
        List.getLast?_append] at hc
      have : ('\n' :: joinNL (y :: ys')).getLast? = (joinNL (y :: ys')).getLast? := by
        cases hj : joinNL (y :: ys') with
        | nil => cases hjoin hj
        | cons a t => rw [List.getLast?_cons_cons]
      rw [this] at hc
      have hsome : (joinNL (y :: ys')).getLast? = some c := by
        cases hg : (joinNL (y :: ys')).getLast? with
        | none => exact absurd hg (by simpa using hjoin)
        | some a => rw [hg] at hc; simpa using hc
      exact ih (fun z hz => h z (List.mem_cons_of_mem _ hz)) c hsome

/-! ### Lemmas about `_normalize_text` -/

theorem normalize_eq_joinNL (t : List Char) :
    _normalize_text t = joinNL (normLines t) := rfl

theorem normLines_mem {t x : List Char} (hx : x ∈ normLines t) :
    x ≠ [] ∧ ∃ y ∈ splitlines t, x = strip y := by
  unfold normLines at hx
  have h1 := List.of_mem_filter hx
  have h2 := List.mem_of_mem_filter hx
  rcases List.mem_map.mp h2 with ⟨y, hy, rfl⟩
  exact ⟨by simpa using h1, y, hy, rfl⟩

theorem normLines_no_newline {t x : List Char} (hx : x ∈ normLines t) :
    '\n' ∉ x ∧ '\r' ∉ x := by
  rcases normLines_mem hx with ⟨_, y, hy, rfl⟩
  have hy2 := splitlines_no_newline t y hy
  exact ⟨fun h => hy2.1 (mem_of_mem_strip h), fun h => hy2.2 (mem_of_mem_strip h)⟩

theorem splitlines_normalize (t : List Char) :
    splitlines (_normalize_text t) = normLines t := by
  rw [normalize_eq_joinNL]
  apply splitlines_joinNL
  intro x hx
  exact ⟨(normLines_mem hx).1, normLines_no_newline hx⟩

theorem normLines_normalize (t : List Char) :
    normLines (_normalize_text t) = normLines t := by
  show ((splitlines (_normalize_text t)).map strip).filter (fun l => !l.isEmpty)
      = normLines t
  rw [splitlines_normalize]
  have hmap : (normLines t).map strip = normLines t := by
    have h : ∀ x ∈ normLines t, strip x = x := by
      intro x hx
      rcases normLines_mem hx with ⟨_, y, _, rfl⟩
      exact strip_idem y
    calc (normLines t).map strip
        = (normLines t).map (fun x => x) := List.map_congr_left h
      _ = normLines t := List.map_id' _
  rw [hmap]
  rw [List.filter_eq_self.mpr]
  intro a ha
  have := (normLines_mem ha).1
  simpa using this

theorem head?_normalize (s : List Char) :
    ∀ c, (_normalize_text s).head? = some c → isPySpace c = false := by
  rw [normalize_eq_joinNL]
  apply joinNL_head?
  intro x hx
  rcases normLines_mem hx with ⟨hne, y, _, rfl⟩
  exact ⟨hne, head?_strip y⟩

theorem getLast?_normalize (s : List Char) :
    ∀ c, (_normalize_text s).getLast? = some c → isPySpace c = false := by
  rw [normalize_eq_joinNL]
  apply joinNL_getLast?
  intro x hx
  rcases normLines_mem hx with ⟨hne, y, _, rfl⟩
  exact ⟨hne, getLast?_strip y⟩

theorem strip_normalize (s : List Char) :
    strip (_normalize_text s) = _normalize_text s :=
  strip_eq_self _ (head?_normalize s) (getLast?_normalize s)

/-! ### Lemmas about `_split_text` -/

theorem step_eq : CHUNK_SIZE - CHUNK_OVERLAP = 640 := by
  norm_num [CHUNK_SIZE, CHUNK_OVERLAP]

theorem split_text_go_of_not_lt {text : List Char} {start : Nat} (fuel : Nat)
    (h : ¬ start < text.length) : split_text_go text (fuel + 1) start = [] := by
  simp [split_text_go, h]

theorem split_text_go_break {text : List Char} {start : Nat} (fuel : Nat)
    (h : start < text.length) (he : text.length ≤ start + CHUNK_SIZE) :
    split_text_go text (fuel + 1) start =
      if (strip ((text.drop start).take (text.length - start))).isEmpty then []
      else [strip ((text.drop start).take (text.length - start))] := by
  have hmin : min (start + CHUNK_SIZE) text.length = text.length := Nat.min_eq_right he
  simp [split_text_go, h, hmin]

theorem split_text_go_cont {text : List Char} {start : Nat} (fuel : Nat)
    (h : start + CHUNK_SIZE < text.length) :
    split_text_go text (fuel + 1) start =
      (if (strip ((text.drop start).take CHUNK_SIZE)).isEmpty then []
       else [strip ((text.drop start).take CHUNK_SIZE)]) ++
      split_text_go text fuel (start + (CHUNK_SIZE - CHUNK_OVERLAP)) := by
  have h0 : start < text.length := Nat.lt_of_le_of_lt (Nat.le_add_right _ _) h
  have hmin : min (start + CHUNK_SIZE) text.length = start + CHUNK_SIZE :=
    Nat.min_eq_left (Nat.le_of_lt h)
  have hne : ¬ (start + CHUNK_SIZE = text.length) := Nat.ne_of_lt h
  simp [split_text_go, h0, hmin, hne, Nat.add_sub_cancel_left]

theorem split_text_go_fuel (text : List Char) :
    ∀ f start, text.length - start ≤ 640 * f →
      ∀ g, f + 1 ≤ g → split_text_go text g start = split_text_go text (f + 1) start := by
  intro f
  induction f with
  | zero =>
    intro start h g hg
    obtain ⟨g', rfl⟩ : ∃ g', g = g' + 1 := ⟨g - 1, by omega⟩
    have hns : ¬ start < text.length := by omega
    rw [split_text_go_of_not_lt g' hns, split_text_go_of_not_lt 0 hns]
  | succ f ih =>
    intro start h g hg
    obtain ⟨g', rfl⟩ : ∃ g', g = g' + 1 := ⟨g - 1, by omega⟩
    by_cases h0 : start < text.length
    · by_cases hbr : text.length ≤ start + CHUNK_SIZE
      · rw [split_text_go_break g' h0 hbr, split_text_go_break (f + 1) h0 hbr]
      · push_neg at hbr
        rw [split_text_go_cont g' hbr, split_text_go_cont (f + 1) hbr]
        congr 1
        have hrec : text.length - (start + (CHUNK_SIZE - CHUNK_OVERLAP)) ≤ 640 * f := by
          rw [step_eq]
          have : CHUNK_SIZE = 800 := rfl
          omega
        exact ih _ hrec g' (by omega)
    · rw [split_text_go_of_not_lt g' h0, split_text_go_of_not_lt (f + 1) h0]

theorem split_text_go_bounds (text : List Char) :
    ∀ f start c, c ∈ split_text_go text f start → c ≠ [] ∧ c.length ≤ CHUNK_SIZE := by
  intro f
  induction f with
  | zero => intro start c hc; cases hc
  | succ f ih =>
    intro start c hc
    by_cases h0 : start < text.length
    · by_cases hbr : text.length ≤ start + CHUNK_SIZE
      · rw [split_text_go_break f h0 hbr] at hc
        by_cases hche : (strip ((text.drop start).take (text.length - start))).isEmpty
        · rw [if_pos hche] at hc; cases hc
        · rw [if_neg hche] at hc
          rcases List.mem_singleton.mp hc with rfl
          refine ⟨by simpa using hche, ?_⟩
          calc (strip ((text.drop start).take (text.length - start))).length
              ≤ ((text.drop start).take (text.length - start)).length :=
                strip_length_le _
            _ ≤ text.length - start := by
                rw [List.length_take]; exact Nat.min_le_left _ _
            _ ≤ CHUNK_SIZE := by omega
      · push_neg at hbr
        rw [split_text_go_cont f hbr] at hc
        rcases List.mem_append.mp hc with hc | hc
        · by_cases hche : (strip ((text.drop start).take CHUNK_SIZE)).isEmpty
          · rw [if_pos hche] at hc; cases hc
          · rw [if_neg hche] at hc
            rcases List.mem_singleton.mp hc with rfl
            refine ⟨by simpa using hche, ?_⟩
            calc (strip ((text.drop start).take CHUNK_SIZE)).length
                ≤ ((text.drop start).take CHUNK_SIZE).length := strip_length_le _
              _ ≤ CHUNK_SIZE := by
                  rw [List.length_take]; exact Nat.min_le_left _ _
        · exact ih _ c hc
    · rw [split_text_go_of_not_lt f h0] at hc; cases hc

theorem split_text_go_all_space (text : List Char) :
    ∀ f start, text.length ≤ start + 640 * f →
      split_text_go text (f + 1) start = [] →
      ∀ c ∈ text.drop start, isPySpace c = true := by
  intro f
  induction f with
  | zero =>
    intro start h _ c hc
    rw [List.drop_eq_nil_of_le (by omega)] at hc
    cases hc
  | succ f ih =>
    intro start h hnil c hc
    by_cases h0 : start < text.length
    · by_cases hbr : text.length ≤ start + CHUNK_SIZE
      · rw [split_text_go_break (f + 1) h0 hbr] at hnil
        by_cases hche : (strip ((text.drop start).take (text.length - start))).isEmpty
        · have hwin : (text.drop start).take (text.length - start) = text.drop start := by
            apply List.take_of_length_le
            rw [List.length_drop]
          rw [hwin] at hche
          exact (strip_eq_nil_iff _).mp (by simpa using hche) c hc
        · rw [if_neg hche] at hnil; cases hnil
      · push_neg at hbr
        rw [split_text_go_cont (f + 1) hbr] at hnil
        rcases List.append_eq_nil.mp hnil with ⟨hchunk, hrest⟩
        have hche : strip ((text.drop start).take CHUNK_SIZE) = [] := by
          by_cases hb : (strip ((text.drop start).take CHUNK_SIZE)).isEmpty
          · simpa using hb
          · rw [if_neg hb] at hchunk; cases hchunk
        have hwinspace := (strip_eq_nil_iff _).mp hche
        have hrestspace := ih (start + (CHUNK_SIZE - CHUNK_OVERLAP))
          (by rw [step_eq]; have : CHUNK_SIZE = 800 := rfl; omega) hrest
        have hsplit : text.drop start =
            (text.drop start).take (CHUNK_SIZE - CHUNK_OVERLAP) ++
            text.drop (start + (CHUNK_SIZE - CHUNK_OVERLAP)) := by
          rw [← List.drop_drop, List.take_append_drop]
        rw [hsplit] at hc
        rcases List.mem_append.mp hc with hc | hc
        · apply hwinspace
          have hsub : (text.drop start).take (CHUNK_SIZE - CHUNK_OVERLAP) =
              ((text.drop start).take CHUNK_SIZE).take (CHUNK_SIZE - CHUNK_OVERLAP) := by
            rw [List.take_take]
            congr 1
          rw [hsub] at hc
          exact (List.take_sublist _ _).subset hc
        · exact hrestspace c hc
    · rw [List.drop_eq_nil_of_le (by omega)] at hc
      cases hc

/-! ### Claim theorems about the normalizer and chunker -/

/-- Claim C7: `_normalize_text` trims each line, drops lines that become empty, and
rejoins the rest with newline separators preserving line order (the lines of
its output are exactly the trimmed non-empty lines of its input, in order),
and it is idempotent: applying it to its own output returns that output
unchanged, for every input. -/
theorem normalize_structure_and_idem (t : List Char) :
    splitlines (_normalize_text t) =
      ((splitlines t).map strip).filter (fun l => !l.isEmpty) ∧
    _normalize_text (_normalize_text t) = _normalize_text t := by
  refine ⟨splitlines_normalize t, ?_⟩
  calc _normalize_text (_normalize_text t)
      = joinNL (normLines (_normalize_text t)) := rfl
    _ = joinNL (normLines t) := by rw [normLines_normalize]
    _ = _normalize_text t := rfl

/-- Claim C8: the chunking loop's result is already stable with an iteration budget
proportional to the text length — with fuel `length + 1` in general, and with
fuel `k + 1` for a text of length `step * k = 640 * k` — so the offset's
strict increase by the positive step bounds the number of iterations and the
loop never runs forever. -/
theorem split_text_terminates_in_bounded_fuel (text : List Char) :
    (∀ g, text.length + 1 ≤ g →
      split_text_go text g 0 = split_text_go text (text.length + 1) 0) ∧
    (∀ k g, 0 < k → text.length = 640 * k → k + 1 ≤ g →
      split_text_go text g 0 = split_text_go text (k + 1) 0) := by
  constructor
  · intro g hg
    exact split_text_go_fuel text text.length 0 (by omega) g hg
  · intro k g hk hlen hg
    exact split_text_go_fuel text k 0 (by omega) g hg

theorem split_text_terminates_in_bounded_fuel_witness :
    split_text_go (List.replicate 1280 'a') 4 0 =
      split_text_go (List.replicate 1280 'a') 3 0 :=
  (split_text_terminates_in_bounded_fuel _).2 2 4 (by norm_num)
    (by rw [List.length_replicate]) (by norm_num)

/-- Claim C9: every chunk `_split_text` emits is non-empty and at most
`CHUNK_SIZE = 800` characters long, and every input containing at least one
non-whitespace character yields at least one chunk. -/
theorem split_text_chunks_nonempty_and_bounded (text : List Char) :
    (∀ c ∈ _split_text text, c ≠ [] ∧ c.length ≤ CHUNK_SIZE) ∧
    ((∃ ch ∈ text, isPySpace ch = false) → _split_text text ≠ []) := by
  constructor
  · intro c hc
    unfold _split_text at hc
    by_cases hb : (strip text).isEmpty
    · rw [if_pos hb] at hc; cases hc
    · rw [if_neg hb] at hc
      exact split_text_go_bounds text _ 0 c hc
  · rintro ⟨ch, hmem, hsp⟩ h0
    unfold _split_text at h0
    have hs : strip text ≠ [] := strip_ne_nil_of_mem hmem hsp
    rw [if_neg (by simpa using hs)] at h0
    have := split_text_go_all_space text text.length 0 (by omega) h0 ch
      (by simpa using hmem)
    rw [hsp] at this; cases this

theorem split_text_chunks_nonempty_and_bounded_witness :
    (['a'] ≠ [] ∧ (['a'] : List Char).length ≤ CHUNK_SIZE) ∧
      _split_text ['a'] ≠ [] :=
  ⟨(split_text_chunks_nonempty_and_bounded ['a']).1 ['a'] (by decide),
   (split_text_chunks_nonempty_and_bounded ['a']).2 ⟨'a', by decide, by decide⟩⟩

/-! ### Claim theorems about parse jobs -/

theorem process_document_ok_doc (pages : List (List Char)) (db : DB) (d : Doc)
    (hdoc : db.doc = some d) :
    (_process_document (Except.ok pages) db).doc =
      some { status := "ready", page_count := pages.length, error_message := none,
             translation_status := "pending", translation_error_message := none,
             updated_at := db.time + 1 } := by
  simp [_process_document, hdoc]

/-- Claim C1: for every parse job whose extraction succeeds (chunk persistence
cannot fail in the model), the final document row has `status = "ready"`,
`page_count` equal to the number of extracted pages,
`translation_status = "pending"`, and both error fields null — regardless of
the values every field held before the parse. -/
theorem parse_success_final_state (pages : List (List Char)) (db : DB) (d : Doc)
    (hdoc : db.doc = some d) :
    (_process_document (Except.ok pages) db).doc =
      some { status := "ready", page_count := pages.length, error_message := none,
             translation_status := "pending", translation_error_message := none,
             updated_at := db.time + 1 } :=
  process_document_ok_doc pages db d hdoc

theorem parse_success_final_state_witness :
    (_process_document (Except.ok [['a']])
        { doc := some { status := "failed", page_count := 7,
                        error_message := some "boom",
                        translation_status := "ready",
                        translation_error_message := some "old",
                        updated_at := 3 },
          chunks := [], time := 5 }).doc =
      some { status := "ready", page_count := 1, error_message := none,
             translation_status := "pending", translation_error_message := none,
             updated_at := 6 } :=
  parse_success_final_state [['a']] _ _ rfl

/-! ### Claim theorems about translate jobs -/

/-- Claim C3 as written is false of the code: the error message stored for a
not-ready document is `"Document is not ready for translation."`, not
`"document not ready"`.  At this concrete input the worker stores the former,
which differs from the message the claim states. -/
theorem translate_not_ready_counterexample :
    (_process_translation (fun t => Except.ok t)
        { doc := some { status := "uploaded", page_count := 0, error_message := none,
                        translation_status := "pending",
                        translation_error_message := none, updated_at := 0 },
          chunks := [], time := 1 } none).1.doc =
      some { status := "uploaded", page_count := 0, error_message := none,
             translation_status := "failed",
             translation_error_message := some "Document is not ready for translation.",
             updated_at := 1 } ∧
    some "Document is not ready for translation." ≠ some "document not ready" :=
  ⟨rfl, by decide⟩

/-- Claim C3 (amended): for every translate job against a document that exists but
whose status is not `"ready"`, the worker sets `translation_status` to
`"failed"`, sets `translation_error_message` to
`"Document is not ready for translation."`, stamps `updated_at` with the
current clock, and stops without calling the translation collaborator or
modifying any chunk. -/
theorem translate_not_ready_amended
    (translate : List Char → Except String (List Char)) (db : DB) (d : Doc)
    (page : Option Nat) (hdoc : db.doc = some d) (hnr : d.status ≠ "ready") :
    (_process_translation translate db page).1.doc =
      some { d with translation_status := "failed",
                    translation_error_message := some "Document is not ready for translation.",
                    updated_at := db.time } ∧
    (_process_translation translate db page).1.chunks = db.chunks ∧
    (_process_translation translate db page).2 = [] := by
  unfold _process_translation
  rw [hdoc]
  simp [hnr]

theorem translate_not_ready_amended_witness :
    (_process_translation (fun t => Except.ok t)
        { doc := some { status := "processing", page_count := 2, error_message := none,
                        translation_status := "pending",
                        translation_error_message := none, updated_at := 4 },
          chunks := [], time := 9 } (some 1)).1.doc =
      some { status := "processing", page_count := 2, error_message := none,
             translation_status := "failed",
             translation_error_message := some "Document is not ready for translation.",
             updated_at := 9 } ∧
    (_process_translation (fun t => Except.ok t)
        { doc := some { status := "processing", page_count := 2, error_message := none,
                        translation_status := "pending",
                        translation_error_message := none, updated_at := 4 },
          chunks := [], time := 9 } (some 1)).1.chunks = [] ∧
    (_process_translation (fun t => Except.ok t)
        { doc := some { status := "processing", page_count := 2, error_message := none,
                        translation_status := "pending",
                        translation_error_message := none, updated_at := 4 },
          chunks := [], time := 9 } (some 1)).2 = [] :=
  translate_not_ready_amended (fun t => Except.ok t)
    { doc := some { status := "processing", page_count := 2, error_message := none,
                    translation_status := "pending",
                    translation_error_message := none, updated_at := 4 },
      chunks := [], time := 9 }
    { status := "processing", page_count := 2, error_message := none,
      translation_status := "pending",
      translation_error_message := none, updated_at := 4 }
    (some 1) rfl (by decide)

/-! ### Lemmas about chunk selection and the translation loop -/

theorem insertLE_perm (le : Chunk → Chunk → Bool) (c : Chunk) (l : List Chunk) :
    List.Perm (insertLE le c l) (c :: l) := by
  induction l with
  | nil => exact List.Perm.refl _
  | cons x xs ih =>
    unfold insertLE
    by_cases h : le c x
    · rw [if_pos h]
    · rw [if_neg h]
      exact (ih.cons x).trans (List.Perm.swap _ _ _)

theorem sortLE_perm (le : Chunk → Chunk → Bool) (l : List Chunk) :
    List.Perm (sortLE le l) l := by
  induction l with
  | nil => exact List.Perm.refl _
  | cons c cs ih =>
    exact (insertLE_perm le c (sortLE le cs)).trans (ih.cons c)

theorem selectChunks_perm (chunks : List Chunk) (page : Option Nat) :
    List.Perm (selectChunks chunks page) (chunks.filter (selPred page)) := by
  cases page with
  | none => exact sortLE_perm _ _
  | some p => exact sortLE_perm _ _

theorem mem_selectChunks {chunks : List Chunk} {page : Option Nat} {ch : Chunk} :
    ch ∈ selectChunks chunks page ↔ ch ∈ chunks ∧ selPred page ch = true := by
  rw [(selectChunks_perm chunks page).mem_iff, List.mem_filter]

theorem selectChunks_page {chunks : List Chunk} {p : Nat} {ch : Chunk}
    (h : ch ∈ selectChunks chunks (some p)) : ch.page = p := by
  have := (mem_selectChunks.mp h).2
  simp only [selPred, Bool.and_eq_true, decide_eq_true_eq] at this
  exact this.1

theorem selectChunks_untranslated {chunks : List Chunk} {page : Option Nat} {ch : Chunk}
    (h : ch ∈ selectChunks chunks page) : untranslatedB ch.text_zh = true := by
  have := (mem_selectChunks.mp h).2
  cases page with
  | none => exact this
  | some p =>
    simp only [selPred, Bool.and_eq_true] at this
    exact this.2

theorem selectChunks_nodup_ids {chunks : List Chunk} {page : Option Nat}
    (h : (chunks.map Chunk.id).Nodup) :
    ((selectChunks chunks page).map Chunk.id).Nodup := by
  have hperm := (selectChunks_perm chunks page).map Chunk.id
  rw [hperm.nodup_iff]
  exact ((List.filter_sublist _).map Chunk.id).nodup h

theorem applyPre_nil (translate : List Char → Except String (List Char)) (ch : Chunk) :
    applyPre translate [] ch = ch := rfl

theorem applyPre_not_mem {translate : List Char → Except String (List Char)}
    {pre : List Chunk} {ch : Chunk} (h : ch.id ∉ pre.map Chunk.id) :
    applyPre translate pre ch = ch := by
  unfold applyPre
  rw [List.find?_eq_none.mpr]
  intro c hc
  simp only [beq_iff_eq]
  intro hid
  exact h (hid ▸ List.mem_map_of_mem Chunk.id hc)

theorem applyPre_cons {translate : List Char → Except String (List Char)}
    {c : Chunk} {rest : List Chunk} {t : List Char}
    (hc : translate c.text_raw = .ok t) (hnotin : c.id ∉ rest.map Chunk.id) (ch : Chunk) :
    applyPre translate (c :: rest) ch =
      applyPre translate rest
        (if ch.id = c.id then { ch with text_zh := some t } else ch) := by
  by_cases h : ch.id = c.id
  · rw [if_pos h]
    have h1 : applyPre translate (c :: rest) ch = { ch with text_zh := some t } := by
      unfold applyPre
      rw [List.find?_cons_of_pos _ (by simp [h])]
      simp [hc]
    have h2 : applyPre translate rest { ch with text_zh := some t } =
        { ch with text_zh := some t } := by
      apply applyPre_not_mem
      intro hmem
      apply hnotin
      have hid : ({ ch with text_zh := some t } : Chunk).id = ch.id := rfl
      rw [hid, h] at hmem
      exact hmem
    rw [h1, h2]
  · rw [if_neg h]
    unfold applyPre
    rw [List.find?_cons_of_neg _ (by simp; intro hh; exact h hh.symm)]

theorem find?_self_of_nodup {pre : List Chunk} {c : Chunk}
    (hnd : (pre.map Chunk.id).Nodup) (hc : c ∈ pre) :
    pre.find? (fun x => x.id == c.id) = some c := by
  induction pre with
  | nil => cases hc
  | cons a rest ih =>
    by_cases h : a.id = c.id
    · rcases List.mem_cons.mp hc with rfl | hc2
      · exact List.find?_cons_of_pos _ (by simp)
      · exfalso
        have : c.id ∈ rest.map Chunk.id := List.mem_map_of_mem Chunk.id hc2
        rw [← h] at this
        exact (List.nodup_cons.mp hnd).1 this
    · rw [List.find?_cons_of_neg _ (by simp [h])]
      rcases List.mem_cons.mp hc with rfl | hc2
      · cases h rfl
      · exact ih (List.nodup_cons.mp hnd).2 hc2

theorem applyPre_self {translate : List Char → Except String (List Char)}
    {pre : List Chunk} {c : Chunk} {t : List Char}
    (hnd : (pre.map Chunk.id).Nodup) (hc : c ∈ pre)
    (ht : translate c.text_raw = .ok t) :
    applyPre translate pre c = { c with text_zh := some t } := by
  unfold applyPre
  rw [find?_self_of_nodup hnd hc]
  simp [ht]

theorem translateChunks_doc_time (translate : List Char → Except String (List Char)) :
    ∀ (sel : List Chunk) (db : DB) (trace : List (List Char)),
      (translateChunks translate sel db trace).1.doc = db.doc ∧
      (translateChunks translate sel db trace).1.time = db.time := by
  intro sel
  induction sel with
  | nil => intro db trace; exact ⟨rfl, rfl⟩
  | cons c rest ih =>
    intro db trace
    cases h : translate c.text_raw with
    | error e => simp [translateChunks, h]
    | ok t => simpa [translateChunks, h] using ih _ _

theorem translateChunks_shape (translate : List Char → Except String (List Char)) :
    ∀ (sel : List Chunk) (db : DB) (trace : List (List Char)),
      ∃ g : Chunk → Chunk,
        (translateChunks translate sel db trace).1.chunks = db.chunks.map g ∧
        ∀ ch, ch.id ∉ sel.map Chunk.id → g ch = ch := by
  intro sel
  induction sel with
  | nil =>
    intro db trace
    refine ⟨fun ch => ch, ?_, fun _ _ => rfl⟩
    simp [translateChunks, List.map_id']
  | cons c rest ih =>
    intro db trace
    cases h : translate c.text_raw with
    | error e =>
      refine ⟨fun ch => ch, ?_, fun _ _ => rfl⟩
      simp [translateChunks, h, List.map_id']
    | ok t =>
      obtain ⟨g, hg, hgid⟩ := ih
        { db with chunks := db.chunks.map (fun ch =>
            if ch.id = c.id then { ch with text_zh := some t } else ch) }
        (trace ++ [c.text_raw])
      refine ⟨fun ch => g (if ch.id = c.id then { ch with text_zh := some t } else ch),
        ?_, ?_⟩
      · have hstep : translateChunks translate (c :: rest) db trace =
            translateChunks translate rest
              { db with chunks := db.chunks.map (fun ch =>
                  if ch.id = c.id then { ch with text_zh := some t } else ch) }
              (trace ++ [c.text_raw]) := by
          simp [translateChunks, h]
        rw [hstep, hg, List.map_map]
        rfl
      · intro ch hch
        have hne : ¬ ch.id = c.id := fun hh =>
          hch (by rw [List.map_cons]; exact List.mem_cons.mpr (Or.inl hh))
        show g (if ch.id = c.id then { ch with text_zh := some t } else ch) = ch
        rw [if_neg hne]
        exact hgid ch (fun hm => hch (by rw [List.map_cons]; exact List.mem_cons_of_mem _ hm))

theorem map_applyPre_nil (translate : List Char → Except String (List Char))
    (l : List Chunk) : l.map (applyPre translate []) = l := by
  rw [List.map_congr_left (fun a _ => applyPre_nil translate a), List.map_id']

theorem translateChunks_all_ok (translate : List Char → Except String (List Char)) :
    ∀ (sel : List Chunk) (db : DB) (trace : List (List Char)),
      (sel.map Chunk.id).Nodup →
      (∀ c ∈ sel, ∃ t, translate c.text_raw = .ok t) →
      translateChunks translate sel db trace =
        ({ db with chunks := db.chunks.map (applyPre translate sel) },
          trace ++ sel.map Chunk.text_raw, none) := by
  intro sel
  induction sel with
  | nil =>
    intro db trace _ _
    simp [translateChunks, map_applyPre_nil]
  | cons c rest ih =>
    intro db trace hnd hok
    obtain ⟨t, ht⟩ := hok c (List.mem_cons_self _ _)
    have hnotin : c.id ∉ rest.map Chunk.id := by
      rw [List.map_cons] at hnd
      exact (List.nodup_cons.mp hnd).1
    have hrec := ih
      { db with chunks := db.chunks.map (fun ch =>
          if ch.id = c.id then { ch with text_zh := some t } else ch) }
      (trace ++ [c.text_raw])
      (by rw [List.map_cons] at hnd; exact (List.nodup_cons.mp hnd).2)
      (fun x hx => hok x (List.mem_cons_of_mem _ hx))
    have hstep : translateChunks translate (c :: rest) db trace =
        translateChunks translate rest
          { db with chunks := db.chunks.map (fun ch =>
              if ch.id = c.id then { ch with text_zh := some t } else ch) }
          (trace ++ [c.text_raw]) := by
      simp [translateChunks, ht]
    rw [hstep, hrec]
    have hchunks : (db.chunks.map (fun ch =>
        if ch.id = c.id then { ch with text_zh := some t } else ch)).map
          (applyPre translate rest) =
        db.chunks.map (applyPre translate (c :: rest)) := by
      rw [List.map_map]
      exact (List.map_congr_left (fun a _ => applyPre_cons ht hnotin a)).symm
    rw [hchunks]
    simp

theorem translateChunks_fail (translate : List Char → Except String (List Char)) :
    ∀ (pre : List Chunk) (cj : Chunk) (post : List Chunk) (db : DB)
      (trace : List (List Char)) (e : String),
      ((pre ++ cj :: post).map Chunk.id).Nodup →
      (∀ c ∈ pre, ∃ t, translate c.text_raw = .ok t) →
      translate cj.text_raw = .error e →
      translateChunks translate (pre ++ cj :: post) db trace =
        ({ db with chunks := db.chunks.map (applyPre translate pre) },
          trace ++ pre.map Chunk.text_raw ++ [cj.text_raw], some e) := by
  intro pre
  induction pre with
  | nil =>
    intro cj post db trace e _ _ hfail
    simp [translateChunks, hfail, map_applyPre_nil]
  | cons c pre' ih =>
    intro cj post db trace e hnd hok hfail
    obtain ⟨t, ht⟩ := hok c (List.mem_cons_self _ _)
    have hnd' : ((c :: (pre' ++ cj :: post)).map Chunk.id).Nodup := by
      simpa using hnd
    have hnotin : c.id ∉ pre'.map Chunk.id := by
      rw [List.map_cons] at hnd'
      intro hm
      exact (List.nodup_cons.mp hnd').1 (by rw [List.map_append]; exact List.mem_append_left _ hm)
    have hrec := ih cj post
      { db with chunks := db.chunks.map (fun ch =>
          if ch.id = c.id then { ch with text_zh := some t } else ch) }
      (trace ++ [c.text_raw]) e
      (by rw [List.map_cons] at hnd'; exact (List.nodup_cons.mp hnd').2)
      (fun x hx => hok x (List.mem_cons_of_mem _ hx)) hfail
    have hstep : translateChunks translate ((c :: pre') ++ cj :: post) db trace =
        translateChunks translate (pre' ++ cj :: post)
          { db with chunks := db.chunks.map (fun ch =>
              if ch.id = c.id then { ch with text_zh := some t } else ch) }
          (trace ++ [c.text_raw]) := by
      simp [translateChunks, ht]
    rw [hstep, hrec]
    have hchunks : (db.chunks.map (fun ch =>
        if ch.id = c.id then { ch with text_zh := some t } else ch)).map
          (applyPre translate pre') =
        db.chunks.map (applyPre translate (c :: pre')) := by
      rw [List.map_map]
      exact (List.map_congr_left (fun a _ => applyPre_cons ht hnotin a)).symm
    rw [hchunks]
    simp

theorem selPred_untranslated {page : Option Nat} {ch : Chunk}
    (h : selPred page ch = true) : untranslatedB ch.text_zh = true := by
  cases page with
  | none => exact h
  | some p =>
    simp only [selPred, Bool.and_eq_true] at h
    exact h.2

/-- Unfolding of `_process_translation` when the document row exists. -/
theorem process_translation_some
    (translate : List Char → Except String (List Char)) (db : DB) (d : Doc)
    (page : Option Nat) (hdoc : db.doc = some d) :
    _process_translation translate db page =
      (if d.status ≠ "ready" then
        ({ db with
           doc := some { d with
             translation_status := "failed",
             translation_error_message := some "Document is not ready for translation.",
             updated_at := db.time },
           time := db.time + 1 }, [])
      else
        (match translateChunks translate (selectChunks db.chunks page)
            { db with
              doc := some { d with translation_status := "processing",
                                   translation_error_message := none,
                                   updated_at := db.time },
              time := db.time + 1 } [] with
        | (db2, trace, some exc) =>
          ({ db2 with
             doc := db2.doc.map (fun d2 =>
               { d2 with translation_status := "failed",
                         translation_error_message := some exc,
                         updated_at := db2.time }),
             time := db2.time + 1 }, trace)
        | (db2, trace, none) => (_refresh_translation_status db2, trace))) := by
  unfold _process_translation
  rw [hdoc]

/-- The full effect of a translate job on a ready document when every selected
chunk translates successfully. -/
theorem process_translation_ok_eq
    (translate : List Char → Except String (List Char)) (db : DB) (d : Doc)
    (page : Option Nat)
    (hdoc : db.doc = some d) (hready : d.status = "ready")
    (hnd : (db.chunks.map Chunk.id).Nodup)
    (hok : ∀ c ∈ selectChunks db.chunks page, ∃ t, translate c.text_raw = Except.ok t) :
    _process_translation translate db page =
      ({ doc := some { d with
            translation_status :=
              if (db.chunks.map (applyPre translate (selectChunks db.chunks page))).countP
                  (fun c => untranslatedB c.text_zh) = 0 then "ready" else "pending",
            translation_error_message := none,
            updated_at := db.time + 1 },
         chunks := db.chunks.map (applyPre translate (selectChunks db.chunks page)),
         time := db.time + 2 },
        (selectChunks db.chunks page).map Chunk.text_raw) := by
  have hselnd : ((selectChunks db.chunks page).map Chunk.id).Nodup :=
    selectChunks_nodup_ids hnd
  have htc := translateChunks_all_ok translate (selectChunks db.chunks page)
    { db with
      doc := some { d with translation_status := "processing",
                           translation_error_message := none,
                           updated_at := db.time },
      time := db.time + 1 } [] hselnd hok
  have hcond : ¬ (d.status ≠ "ready") := by simp [hready]
  rw [process_translation_some translate db d page hdoc, if_neg hcond]
  simp only [htc, _refresh_translation_status]
  rfl

/-- The full effect of a translate job on a ready document when the
translation collaborator fails at the chunk `cj` of the selection, after the
prefix `pre` succeeded. -/
theorem process_translation_fail_eq
    (translate : List Char → Except String (List Char)) (db : DB) (d : Doc)
    (page : Option Nat) (pre : List Chunk) (cj : Chunk) (post : List Chunk)
    (e : String)
    (hdoc : db.doc = some d) (hready : d.status = "ready")
    (hnd : (db.chunks.map Chunk.id).Nodup)
    (hsel : selectChunks db.chunks page = pre ++ cj :: post)
    (hok : ∀ c ∈ pre, ∃ t, translate c.text_raw = Except.ok t)
    (hfail : translate cj.text_raw = Except.error e) :
    _process_translation translate db page =
      ({ doc := some { d with translation_status := "failed",
                              translation_error_message := some e,
                              updated_at := db.time + 1 },
         chunks := db.chunks.map (applyPre translate pre),
         time := db.time + 2 },
        pre.map Chunk.text_raw ++ [cj.text_raw]) := by
  have hselnd : ((pre ++ cj :: post).map Chunk.id).Nodup := by
    rw [← hsel]
    exact selectChunks_nodup_ids hnd
  have htc := translateChunks_fail translate pre cj post
    { db with
      doc := some { d with translation_status := "processing",
                           translation_error_message := none,
                           updated_at := db.time },
      time := db.time + 1 } [] e hselnd hok hfail
  have hcond : ¬ (d.status ≠ "ready") := by simp [hready]
  rw [process_translation_some translate db d page hdoc, if_neg hcond]
  simp only [hsel, htc]
  rfl

/-! ### Claim theorems about translate jobs, continued -/

/-- Claim C2: for every translate job on a ready document in which every selected
chunk translates successfully, the worker recomputes `translation_status` by
counting the untranslated chunks (`text_zh` null or empty) of the whole
document — the final chunk table, not just the selected subset — storing
`"ready"` if zero remain and `"pending"` otherwise. -/
theorem translate_all_success_recomputes_status
    (translate : List Char → Except String (List Char)) (db : DB) (d : Doc)
    (page : Option Nat)
    (hdoc : db.doc = some d) (hready : d.status = "ready")
    (hnd : (db.chunks.map Chunk.id).Nodup)
    (hok : ∀ c ∈ selectChunks db.chunks page, ∃ t, translate c.text_raw = Except.ok t) :
    ∃ d2, (_process_translation translate db page).1.doc = some d2 ∧
      d2.translation_status =
        (if ((_process_translation translate db page).1.chunks.countP
            (fun c => untranslatedB c.text_zh)) = 0 then "ready" else "pending") ∧
      d2.translation_error_message = none := by
  rw [process_translation_ok_eq translate db d page hdoc hready hnd hok]
  exact ⟨_, rfl, rfl, rfl⟩

theorem translate_all_success_recomputes_status_witness :
    ∃ d2, (_process_translation (fun t => Except.ok ('x' :: t))
        { doc := some { status := "ready", page_count := 1, error_message := none,
                        translation_status := "pending",
                        translation_error_message := none, updated_at := 0 },
          chunks := [{ id := 0, page := 1, chunk_index := 0, text_raw := ['h'],
                       text_zh := none, embedding_status := "pending" },
                     { id := 1, page := 2, chunk_index := 0, text_raw := ['y'],
                       text_zh := none, embedding_status := "pending" }],
          time := 1 } (some 1)).1.doc = some d2 ∧
      d2.translation_status =
        (if ((_process_translation (fun t => Except.ok ('x' :: t))
            { doc := some { status := "ready", page_count := 1, error_message := none,
                            translation_status := "pending",
                            translation_error_message := none, updated_at := 0 },
              chunks := [{ id := 0, page := 1, chunk_index := 0, text_raw := ['h'],
                           text_zh := none, embedding_status := "pending" },
                         { id := 1, page := 2, chunk_index := 0, text_raw := ['y'],
                           text_zh := none, embedding_status := "pending" }],
              time := 1 } (some 1)).1.chunks.countP
            (fun c => untranslatedB c.text_zh)) = 0 then "ready" else "pending") ∧
      d2.translation_error_message = none :=
  translate_all_success_recomputes_status (fun t => Except.ok ('x' :: t))
    { doc := some { status := "ready", page_count := 1, error_message := none,
                    translation_status := "pending",
                    translation_error_message := none, updated_at := 0 },
      chunks := [{ id := 0, page := 1, chunk_index := 0, text_raw := ['h'],
                   text_zh := none, embedding_status := "pending" },
                 { id := 1, page := 2, chunk_index := 0, text_raw := ['y'],
                   text_zh := none, embedding_status := "pending" }],
      time := 1 }
    { status := "ready", page_count := 1, error_message := none,
      translation_status := "pending",
      translation_error_message := none, updated_at := 0 }
    (some 1) rfl rfl (by decide)
    (by intro c hc; exact ⟨'x' :: c.text_raw, rfl⟩)

/-- Whatever a translate job does, its effect on the chunk table is a per-row
map that leaves every row outside the selection untouched. -/
theorem process_translation_chunks_shape
    (translate : List Char → Except String (List Char)) (db : DB) (d : Doc)
    (page : Option Nat) (hdoc : db.doc = some d) :
    ∃ g : Chunk → Chunk,
      (_process_translation translate db page).1.chunks = db.chunks.map g ∧
      ∀ ch, ch.id ∉ (selectChunks db.chunks page).map Chunk.id → g ch = ch := by
  rw [process_translation_some translate db d page hdoc]
  by_cases hs : d.status ≠ "ready"
  · rw [if_pos hs]
    exact ⟨fun ch => ch, by simp [List.map_id'], fun _ _ => rfl⟩
  · rw [if_neg hs]
    obtain ⟨g, hg, hgid⟩ := translateChunks_shape translate (selectChunks db.chunks page)
      { db with
        doc := some { d with translation_status := "processing",
                             translation_error_message := none,
                             updated_at := db.time },
        time := db.time + 1 } []
    rcases htc : translateChunks translate (selectChunks db.chunks page)
      { db with
        doc := some { d with translation_status := "processing",
                             translation_error_message := none,
                             updated_at := db.time },
        time := db.time + 1 } [] with ⟨db2, trace, err⟩
    rw [htc] at hg
    cases err with
    | some e => exact ⟨g, hg, hgid⟩
    | none => exact ⟨g, hg, hgid⟩

/-- Claim C6: a translate job carrying a page number only ever mutates chunks whose
`page` equals that number — every row of another page is unchanged at its
position — while the `translation_status` recomputed at the end still counts
untranslated chunks over the entire document. -/
theorem translate_page_scoped_frame
    (translate : List Char → Except String (List Char)) (db : DB) (d : Doc)
    (p : Nat) (hdoc : db.doc = some d) (hnd : (db.chunks.map Chunk.id).Nodup) :
    ((_process_translation translate db (some p)).1.chunks.length =
      db.chunks.length) ∧
    (∀ i, ∀ h1 : i < db.chunks.length, (db.chunks.get ⟨i, h1⟩).page ≠ p →
      (_process_translation translate db (some p)).1.chunks.get? i =
        some (db.chunks.get ⟨i, h1⟩)) ∧
    (d.status = "ready" →
      (∀ c ∈ selectChunks db.chunks (some p), ∃ t, translate c.text_raw = Except.ok t) →
      ∃ d2, (_process_translation translate db (some p)).1.doc = some d2 ∧
        d2.translation_status =
          (if ((_process_translation translate db (some p)).1.chunks.countP
              (fun c => untranslatedB c.text_zh)) = 0 then "ready" else "pending")) := by
  obtain ⟨g, hg, hgid⟩ := process_translation_chunks_shape translate db d (some p) hdoc
  refine ⟨?_, ?_, ?_⟩
  · rw [hg, List.length_map]
  · intro i h1 hpage
    rw [hg, List.get?_map, List.get?_eq_get h1, Option.map_some']
    have hid : (db.chunks.get ⟨i, h1⟩).id ∉
        (selectChunks db.chunks (some p)).map Chunk.id := by
      intro hmem
      rcases List.mem_map.mp hmem with ⟨c, hcsel, hcid⟩
      have hcdb : c ∈ db.chunks := (mem_selectChunks.mp hcsel).1
      have hcpage : c.page = p := selectChunks_page hcsel
      have heq := List.inj_on_of_nodup_map hnd hcdb (List.get_mem _ _ _) hcid
      rw [heq] at hcpage
      exact hpage hcpage
    rw [hgid _ hid]
  · intro hready hok
    rw [process_translation_ok_eq translate db d (some p) hdoc hready hnd hok]
    exact ⟨_, rfl, rfl⟩

theorem translate_page_scoped_frame_witness :
    ((_process_translation (fun t => Except.ok ('x' :: t))
        { doc := some { status := "ready", page_count := 2, error_message := none,
                        translation_status := "pending",
                        translation_error_message := none, updated_at := 0 },
          chunks := [{ id := 0, page := 1, chunk_index := 0, text_raw := ['h'],
                       text_zh := none, embedding_status := "pending" },
                     { id := 1, page := 2, chunk_index := 0, text_raw := ['y'],
                       text_zh := none, embedding_status := "pending" }],
          time := 1 } (some 1)).1.chunks.length = 2) ∧
    ((_process_translation (fun t => Except.ok ('x' :: t))
        { doc := some { status := "ready", page_count := 2, error_message := none,
                        translation_status := "pending",
                        translation_error_message := none, updated_at := 0 },
          chunks := [{ id := 0, page := 1, chunk_index := 0, text_raw := ['h'],
                       text_zh := none, embedding_status := "pending" },
                     { id := 1, page := 2, chunk_index := 0, text_raw := ['y'],
                       text_zh := none, embedding_status := "pending" }],
          time := 1 } (some 1)).1.chunks.get? 1 =
      some { id := 1, page := 2, chunk_index := 0, text_raw := ['y'],
             text_zh := none, embedding_status := "pending" }) := by
  have h := translate_page_scoped_frame (fun t => Except.ok ('x' :: t))
    { doc := some { status := "ready", page_count := 2, error_message := none,
                    translation_status := "pending",
                    translation_error_message := none, updated_at := 0 },
      chunks := [{ id := 0, page := 1, chunk_index := 0, text_raw := ['h'],
                   text_zh := none, embedding_status := "pending" },
                 { id := 1, page := 2, chunk_index := 0, text_raw := ['y'],
                   text_zh := none, embedding_status := "pending" }],
      time := 1 }
    { status := "ready", page_count := 2, error_message := none,
      translation_status := "pending",
      translation_error_message := none, updated_at := 0 }
    1 rfl (by decide)
  exact ⟨h.1, h.2.1 1 (by decide) (by decide)⟩

/-- Claim C4: when the translation collaborator fails on the `j`-th selected chunk
after the first `j` succeeded, the worker records `translation_status =
"failed"` with the failure description and stops; every chunk translated
earlier in the run keeps its stored `text_zh` (partial progress is not rolled
back), and a subsequent translate job selects exactly the still-untranslated
chunks of the selection. -/
theorem translate_failure_preserves_progress
    (translate : List Char → Except String (List Char)) (db : DB) (d : Doc)
    (page : Option Nat) (j : Nat) (e : String)
    (hdoc : db.doc = some d) (hready : d.status = "ready")
    (hnd : (db.chunks.map Chunk.id).Nodup)
    (hj : j < (selectChunks db.chunks page).length)
    (hok : ∀ c ∈ (selectChunks db.chunks page).take j,
      ∃ t, translate c.text_raw = Except.ok t ∧ t ≠ [])
    (hfail : translate ((selectChunks db.chunks page).get ⟨j, hj⟩).text_raw =
      Except.error e) :
    (∃ d2, (_process_translation translate db page).1.doc = some d2 ∧
      d2.translation_status = "failed" ∧
      d2.translation_error_message = some e) ∧
    (∀ c ∈ (selectChunks db.chunks page).take j,
      ∃ t, translate c.text_raw = Except.ok t ∧
        { c with text_zh := some t } ∈
          (_process_translation translate db page).1.chunks) ∧
    (∀ ch, ch ∈ selectChunks (_process_translation translate db page).1.chunks page ↔
      ch ∈ (selectChunks db.chunks page).drop j) := by
  have hselnd : ((selectChunks db.chunks page).map Chunk.id).Nodup :=
    selectChunks_nodup_ids hnd
  have hsel : selectChunks db.chunks page =
      (selectChunks db.chunks page).take j ++
        (selectChunks db.chunks page).get ⟨j, hj⟩ ::
          (selectChunks db.chunks page).drop (j + 1) := by
    conv_lhs => rw [← List.take_append_drop j (selectChunks db.chunks page)]
    rw [List.drop_eq_get_cons hj]
  have hok' : ∀ c ∈ (selectChunks db.chunks page).take j,
      ∃ t, translate c.text_raw = Except.ok t :=
    fun c hc => (hok c hc).imp (fun t ht => ht.1)
  have hfull := process_translation_fail_eq translate db d page
    ((selectChunks db.chunks page).take j)
    ((selectChunks db.chunks page).get ⟨j, hj⟩)
    ((selectChunks db.chunks page).drop (j + 1)) e
    hdoc hready hnd hsel hok' hfail
  have hprend : (((selectChunks db.chunks page).take j).map Chunk.id).Nodup :=
    ((List.take_sublist j (selectChunks db.chunks page)).map Chunk.id).nodup hselnd
  refine ⟨?_, ?_, ?_⟩
  · rw [hfull]
    exact ⟨_, rfl, rfl, rfl⟩
  · intro c hc
    obtain ⟨t, ht, htne⟩ := hok c hc
    have hcsel : c ∈ selectChunks db.chunks page :=
      (List.take_sublist j _).subset hc
    have hcdb : c ∈ db.chunks := (mem_selectChunks.mp hcsel).1
    have happ := applyPre_self hprend hc ht
    refine ⟨t, ht, ?_⟩
    rw [hfull]
    have := List.mem_map_of_mem
      (applyPre translate ((selectChunks db.chunks page).take j)) hcdb
    rw [happ] at this
    exact this
  · intro ch
    rw [hfull]
    constructor
    · intro hmem
      obtain ⟨hF, hpred⟩ := mem_selectChunks.mp hmem
      obtain ⟨x, hxdb, hxeq⟩ := List.mem_map.mp hF
      rcases hf : ((selectChunks db.chunks page).take j).find?
          (fun c => c.id == x.id) with _ | c'
      · have hxch : ch = x := by
          rw [← hxeq]
          unfold applyPre
          rw [hf]
        have hxsel : x ∈ selectChunks db.chunks page :=
          mem_selectChunks.mpr ⟨hxdb, hxch ▸ hpred⟩
        rcases List.mem_append.mp
            ((List.take_append_drop j (selectChunks db.chunks page)) ▸ hxsel)
          with htake | hdrop
        · exfalso
          have := List.find?_eq_none.mp hf x htake
          simp at this
        · rw [hxch]
          exact hdrop
      · exfalso
        have hc'mem : c' ∈ (selectChunks db.chunks page).take j :=
          List.mem_of_find?_eq_some hf
        obtain ⟨t, ht, htne⟩ := hok c' hc'mem
        have happf : applyPre translate ((selectChunks db.chunks page).take j) x =
            { x with text_zh := some t } := by
          unfold applyPre
          rw [hf]
          simp [ht]
        have hchzh : ch.text_zh = some t := by rw [← hxeq, happf]
        have hu := selPred_untranslated hpred
        rw [hchzh] at hu
        simp only [untranslatedB, List.isEmpty_iff] at hu
        exact htne hu
    · intro hdrop
      have hchsel : ch ∈ selectChunks db.chunks page :=
        (List.drop_sublist j _).subset hdrop
      obtain ⟨hchdb, hpred⟩ := mem_selectChunks.mp hchsel
      have hnotin : ch.id ∉ ((selectChunks db.chunks page).take j).map Chunk.id := by
        intro hmem2
        have hseldisj : List.Disjoint
            (((selectChunks db.chunks page).take j).map Chunk.id)
            (((selectChunks db.chunks page).drop j).map Chunk.id) := by
          have h2 := hselnd
          rw [← List.take_append_drop j (selectChunks db.chunks page),
            List.map_append] at h2
          exact List.disjoint_of_nodup_append h2
        exact hseldisj hmem2 (List.mem_map_of_mem _ hdrop)
      have happ : applyPre translate ((selectChunks db.chunks page).take j) ch = ch :=
        applyPre_not_mem hnotin
      refine mem_selectChunks.mpr ⟨?_, hpred⟩
      have := List.mem_map_of_mem
        (applyPre translate ((selectChunks db.chunks page).take j)) hchdb
      rw [happ] at this
      exact this

theorem translate_failure_preserves_progress_witness :
    (∃ d2, (_process_translation (fun _ => Except.error "boom")
        { doc := some { status := "ready", page_count := 1, error_message := none,
                        translation_status := "pending",
                        translation_error_message := none, updated_at := 0 },
          chunks := [{ id := 0, page := 1, chunk_index := 0, text_raw := ['a'],
                       text_zh := none, embedding_status := "pending" }],
          time := 1 } none).1.doc = some d2 ∧
      d2.translation_status = "failed" ∧
      d2.translation_error_message = some "boom") ∧
    (∀ c ∈ (selectChunks
        [{ id := 0, page := 1, chunk_index := 0, text_raw := ['a'],
           text_zh := none, embedding_status := "pending" }] none).take 0,
      ∃ t, Except.error "boom" = Except.ok t ∧
        { c with text_zh := some t } ∈
          (_process_translation (fun _ => Except.error "boom")
            { doc := some { status := "ready", page_count := 1, error_message := none,
                            translation_status := "pending",
                            translation_error_message := none, updated_at := 0 },
              chunks := [{ id := 0, page := 1, chunk_index := 0, text_raw := ['a'],
                           text_zh := none, embedding_status := "pending" }],
              time := 1 } none).1.chunks) ∧
    (∀ ch, ch ∈ selectChunks (_process_translation (fun _ => Except.error "boom")
        { doc := some { status := "ready", page_count := 1, error_message := none,
                        translation_status := "pending",
                        translation_error_message := none, updated_at := 0 },
          chunks := [{ id := 0, page := 1, chunk_index := 0, text_raw := ['a'],
                       text_zh := none, embedding_status := "pending" }],
          time := 1 } none).1.chunks none ↔
      ch ∈ (selectChunks
        [{ id := 0, page := 1, chunk_index := 0, text_raw := ['a'],
           text_zh := none, embedding_status := "pending" }] none).drop 0) :=
  translate_failure_preserves_progress (fun _ => Except.error "boom")
    { doc := some { status := "ready", page_count := 1, error_message := none,
                    translation_status := "pending",
                    translation_error_message := none, updated_at := 0 },
      chunks := [{ id := 0, page := 1, chunk_index := 0, text_raw := ['a'],
                   text_zh := none, embedding_status := "pending" }],
      time := 1 }
    { status := "ready", page_count := 1, error_message := none,
      translation_status := "pending",
      translation_error_message := none, updated_at := 0 }
    none 0 "boom" rfl rfl (by decide) (by decide)
    (fun c hc => absurd hc (List.not_mem_nil c)) rfl

/-! ### Claim theorem about the chunk-listing endpoint -/

/-- Claim C10: for both accepted `lang` values — `"raw"` as well as `"zh"` — the
chunk-listing endpoint's response includes a `cached_translation_count` field
equal to the number of returned chunks whose `text_zh` is non-empty. -/
theorem chunks_endpoint_cached_count
    (db : DB) (d : Doc) (page : Option Nat) (lang : String)
    (hdoc : db.doc = some d) (hlang : lang = "raw" ∨ lang = "zh") :
    ∃ resp, get_document_chunks db page lang = Except.ok resp ∧
      resp.cached_translation_count =
        (endpointRows db.chunks page).countP (fun c => zhTruthy c.text_zh) := by
  unfold get_document_chunks
  rw [hdoc]
  rcases hlang with rfl | rfl
  · exact ⟨_, rfl, rfl⟩
  · refine ⟨_, rfl, ?_⟩
    simp only [List.countP_map]
    rfl

theorem chunks_endpoint_cached_count_witness :
    ∃ resp, get_document_chunks
        { doc := some { status := "ready", page_count := 1, error_message := none,
                        translation_status := "pending",
                        translation_error_message := none, updated_at := 0 },
          chunks := [{ id := 0, page := 1, chunk_index := 0, text_raw := ['a'],
                       text_zh := some ['x'], embedding_status := "pending" },
                     { id := 1, page := 1, chunk_index := 1, text_raw := ['b'],
                       text_zh := none, embedding_status := "pending" }],
          time := 1 } none "raw" = Except.ok resp ∧
      resp.cached_translation_count =
        (endpointRows
          [{ id := 0, page := 1, chunk_index := 0, text_raw := ['a'],
             text_zh := some ['x'], embedding_status := "pending" },
           { id := 1, page := 1, chunk_index := 1, text_raw := ['b'],
             text_zh := none, embedding_status := "pending" }] none).countP
          (fun c => zhTruthy c.text_zh) :=
  chunks_endpoint_cached_count
    { doc := some { status := "ready", page_count := 1, error_message := none,
                    translation_status := "pending",
                    translation_error_message := none, updated_at := 0 },
      chunks := [{ id := 0, page := 1, chunk_index := 0, text_raw := ['a'],
                   text_zh := some ['x'], embedding_status := "pending" },
                 { id := 1, page := 1, chunk_index := 1, text_raw := ['b'],
                   text_zh := none, embedding_status := "pending" }],
      time := 1 }
    { status := "ready", page_count := 1, error_message := none,
      translation_status := "pending",
      translation_error_message := none, updated_at := 0 }
    none "raw" rfl (Or.inl rfl)

/-! ### The two-page end-to-end parse scenario -/

theorem mem_of_getLast?_eq_some {l : List Char} {c : Char}
    (h : l.getLast? = some c) : c ∈ l := by
  obtain ⟨ys, rfl⟩ := List.getLast?_eq_some_iff.mp h
  simp

theorem getLast?_drop_of_lt (n : Nat) (l : List Char) (h : n < l.length) :
    (l.drop n).getLast? = l.getLast? := by
  have hne : l.drop n ≠ [] := by
    apply List.ne_nil_of_length_pos
    rw [List.length_drop]
    omega
  calc (l.drop n).getLast?
      = ((l.drop n).getLast?).or (l.take n).getLast? := by
        cases hg : (l.drop n).getLast? with
        | none => exact absurd (List.getLast?_eq_none_iff.mp hg) hne
        | some a => rfl
    _ = (l.take n ++ l.drop n).getLast? := (List.getLast?_append).symm
    _ = l.getLast? := by rw [List.take_append_drop]

theorem split_text_of_normalized_1000 (s t : List Char)
    (ht : t = _normalize_text s) (hl : t.length = 1000) :
    _split_text t = [strip (t.take 800), strip (t.drop 640)] := by
  have htne : t ≠ [] := by intro h0; rw [h0] at hl; simp at hl
  have hhead : ∀ c, t.head? = some c → isPySpace c = false := by
    rw [ht]; exact head?_normalize s
  have hlastp : ∀ c, t.getLast? = some c → isPySpace c = false := by
    rw [ht]; exact getLast?_normalize s
  have hstrip : strip t = t := by rw [ht]; exact strip_normalize s
  have hchunk1 : strip (t.take 800) ≠ [] := by
    cases t with
    | nil => exact absurd rfl htne
    | cons a b =>
      have ha : isPySpace a = false := hhead a rfl
      apply strip_ne_nil_of_mem _ ha
      rw [show (800 : Nat) = 799 + 1 from rfl, List.take_succ_cons]
      exact List.mem_cons_self _ _
  obtain ⟨cl, hcl⟩ : ∃ c, t.getLast? = some c := by
    cases hg : t.getLast? with
    | none => exact absurd (List.getLast?_eq_none_iff.mp hg) htne
    | some a => exact ⟨a, rfl⟩
  have hchunk2 : strip (t.drop 640) ≠ [] := by
    apply strip_ne_nil_of_mem _ (hlastp cl hcl)
    apply mem_of_getLast?_eq_some
    rw [getLast?_drop_of_lt 640 t (by omega)]
    exact hcl
  have hie : (strip t).isEmpty = false := by
    rw [hstrip]
    cases t with
    | nil => exact absurd rfl htne
    | cons a b => rfl
  unfold _split_text
  rw [if_neg (by simp [hie])]
  rw [hl]
  rw [split_text_go_cont 1000 (by rw [hl]; norm_num [CHUNK_SIZE])]
  have hd0 : (t.drop 0).take CHUNK_SIZE = t.take 800 := by
    rw [List.drop_zero]
    rfl
  rw [hd0, if_neg (by simp [List.isEmpty_iff, hchunk1])]
  have hstart : 0 + (CHUNK_SIZE - CHUNK_OVERLAP) = 640 := by
    norm_num [CHUNK_SIZE, CHUNK_OVERLAP]
  rw [hstart]
  rw [show (1000 : Nat) = 999 + 1 from rfl]
  rw [split_text_go_break 999 (by omega) (by rw [hl]; norm_num [CHUNK_SIZE])]
  have htake360 : (t.drop 640).take (t.length - 640) = t.drop 640 := by
    apply List.take_of_length_le
    rw [List.length_drop]
  rw [htake360, if_neg (by simp [List.isEmpty_iff, hchunk2])]
  rfl

theorem split_text_short (s t : List Char) (ht : t = _normalize_text s)
    (hlen : t.length ≤ CHUNK_SIZE) (hne : t ≠ []) :
    _split_text t = [t] := by
  have hstrip : strip t = t := by rw [ht]; exact strip_normalize s
  have hie : (strip t).isEmpty = false := by
    rw [hstrip]
    cases t with
    | nil => exact absurd rfl hne
    | cons a b => rfl
  unfold _split_text
  rw [if_neg (by simp [hie])]
  rw [split_text_go_break t.length (List.length_pos.mpr hne) (by omega)]
  have htake : (t.drop 0).take (t.length - 0) = t := by
    rw [List.drop_zero, Nat.sub_zero, List.take_length]
  rw [htake, hstrip, if_neg (by simp [List.isEmpty_iff, hne])]

theorem parse_success_chunks (pages : List (List Char)) (db : DB) (d : Doc)
    (hdoc : db.doc = some d) :
    (_process_document (Except.ok pages) db).chunks = _build_chunks pages := by
  simp [_process_document, hdoc]

/-- Claim C5: a 2-page parse whose page 1 normalizes to 1000 characters and page 2
to 200 characters yields, with window 800 and overlap 160 (step 640), exactly
the chunks obtained by trimming characters `[0, 800)` and `[640, 1000)` of
page 1 and the whole of page 2 — three chunk rows in total — and the document
ends with `status = "ready"`, `page_count = 2`, and
`translation_status = "pending"`. -/
theorem parse_two_page_scenario
    (s1 s2 t1 t2 : List Char) (db : DB) (d : Doc)
    (h1 : t1 = _normalize_text s1) (h2 : t2 = _normalize_text s2)
    (hl1 : t1.length = 1000) (hl2 : t2.length = 200)
    (hdoc : db.doc = some d) :
    ((_process_document (Except.ok [t1, t2]) db).chunks.map
        (fun c => (c.page, c.chunk_index, c.text_raw)) =
      [(1, 0, strip (t1.take 800)), (1, 1, strip (t1.drop 640)), (2, 0, t2)]) ∧
    (_process_document (Except.ok [t1, t2]) db).chunks.length = 3 ∧
    ∃ d2, (_process_document (Except.ok [t1, t2]) db).doc = some d2 ∧
      d2.status = "ready" ∧ d2.page_count = 2 ∧
      d2.translation_status = "pending" := by
  have hs1 := split_text_of_normalized_1000 s1 t1 h1 hl1
  have hs2 := split_text_short s2 t2 h2 (by rw [hl2]; norm_num [CHUNK_SIZE])
    (by intro h0; rw [h0] at hl2; simp at hl2)
  have hchunks : (_process_document (Except.ok [t1, t2]) db).chunks =
      [{ id := 0, page := 1, chunk_index := 0, text_raw := strip (t1.take 800),
         text_zh := none, embedding_status := "pending" },
       { id := 1, page := 1, chunk_index := 1, text_raw := strip (t1.drop 640),
         text_zh := none, embedding_status := "pending" },
       { id := 2, page := 2, chunk_index := 0, text_raw := t2,
         text_zh := none, embedding_status := "pending" }] := by
    rw [parse_success_chunks [t1, t2] db d hdoc]
    calc _build_chunks [t1, t2]
        = (((_split_text t1).enum.map (fun ic : Nat × List Char =>
              ({ id := 0, page := 1, chunk_index := ic.1, text_raw := ic.2,
                 text_zh := none, embedding_status := "pending" } : Chunk)) ++
            ((_split_text t2).enum.map (fun ic : Nat × List Char =>
              ({ id := 0, page := 2, chunk_index := ic.1, text_raw := ic.2,
                 text_zh := none, embedding_status := "pending" } : Chunk)) ++
              [])).enum.map (fun r : Nat × Chunk => { r.2 with id := r.1 })) := rfl
      _ = _ := by rw [hs1, hs2]; rfl
  refine ⟨?_, ?_, ?_⟩
  · rw [hchunks]; rfl
  · rw [hchunks]; rfl
  · rw [process_document_ok_doc [t1, t2] db d hdoc]
    exact ⟨_, rfl, rfl, rfl, rfl⟩

theorem normalize_replicate (c : Char) (hc1 : isPySpace c = false)
    (hc2 : c ≠ '\n') (hc3 : c ≠ '\r') (n : Nat) :
    _normalize_text (List.replicate n c) = List.replicate n c := by
  cases n with
  | zero =>
    show _normalize_text [] = []
    unfold _normalize_text
    rw [splitlines_nil]
    rfl
  | succ m =>
    have hne : List.replicate (m + 1) c ≠ [] := by simp
    have hnn : '\n' ∉ List.replicate (m + 1) c := by
      intro hm; exact hc2 (List.eq_of_mem_replicate hm).symm
    have hnr : '\r' ∉ List.replicate (m + 1) c := by
      intro hm; exact hc3 (List.eq_of_mem_replicate hm).symm
    have hsl := splitlines_singleton _ hne hnn hnr
    have hst : strip (List.replicate (m + 1) c) = List.replicate (m + 1) c := by
      apply strip_eq_self
      · intro x hx
        rw [List.replicate_succ, List.head?_cons] at hx
        cases hx
        exact hc1
      · intro x hx
        rw [List.replicate_succ', List.getLast?_concat] at hx
        cases hx
        exact hc1
    unfold _normalize_text
    rw [hsl, List.map_cons, List.map_nil, hst]
    rw [List.filter_cons_of_pos (by simp [hne])]
    rfl

theorem parse_two_page_scenario_witness :
    ((_process_document (Except.ok [List.replicate 1000 'a', List.replicate 200 'b'])
        { doc := some { status := "uploaded", page_count := 0, error_message := none,
                        translation_status := "pending",
                        translation_error_message := none, updated_at := 0 },
          chunks := [], time := 1 }).chunks.map
        (fun c => (c.page, c.chunk_index, c.text_raw)) =
      [(1, 0, strip ((List.replicate 1000 'a').take 800)),
       (1, 1, strip ((List.replicate 1000 'a').drop 640)),
       (2, 0, List.replicate 200 'b')]) ∧
    (_process_document (Except.ok [List.replicate 1000 'a', List.replicate 200 'b'])
        { doc := some { status := "uploaded", page_count := 0, error_message := none,
                        translation_status := "pending",
                        translation_error_message := none, updated_at := 0 },
          chunks := [], time := 1 }).chunks.length = 3 ∧
    ∃ d2, (_process_document (Except.ok [List.replicate 1000 'a', List.replicate 200 'b'])
        { doc := some { status := "uploaded", page_count := 0, error_message := none,
                        translation_status := "pending",
                        translation_error_message := none, updated_at := 0 },
          chunks := [], time := 1 }).doc = some d2 ∧
      d2.status = "ready" ∧ d2.page_count = 2 ∧
      d2.translation_status = "pending" :=
  parse_two_page_scenario (List.replicate 1000 'a') (List.replicate 200 'b')
    (List.replicate 1000 'a') (List.replicate 200 'b')
    { doc := some { status := "uploaded", page_count := 0, error_message := none,
                    translation_status := "pending",
                    translation_error_message := none, updated_at := 0 },
      chunks := [], time := 1 }
    { status := "uploaded", page_count := 0, error_message := none,
      translation_status := "pending",
      translation_error_message := none, updated_at := 0 }
    (normalize_replicate 'a' (by decide) (by decide) (by decide) 1000).symm
    (normalize_replicate 'b' (by decide) (by decide) (by decide) 200).symm
    (by rw [List.length_replicate]) (by rw [List.length_replicate]) rfl

end DocPro
